import Mathlib

/-!
# Verification of the IO-weighted TFP decomposition engine

Shallow embedding, over `ℚ`, of the growth-accounting pipeline of the
repository (`Programs/note.py`, `Programs/productivity.py`,
`Programs/io_can.py`): the industry panel with Törnqvist weights, the
two-pass decomposition of labor-productivity and TFP growth, the Domar
weight solver, the allocative wedge diagnostic, the cost-share
construction and the classification crosswalk filters.

Missing float values (`NaN`) are embedded as `Option ℚ` with
none-absorbing arithmetic, matching pandas semantics: a product or
difference with a missing operand is missing, and aggregation sums skip
missing terms (`nsum` below).  Growth rates, which the source obtains as
log-differences of index levels, enter the panel as data: none of the
claims depends on evaluating a logarithm, only on how the growth rates
are weighted and summed.
-/

/-- Numerical tolerance of the source's identity checks (`1e-10`). -/
def tol : ℚ := 1 / 10 ^ 10

/-- pandas multiplication of possibly-missing values: missing absorbs. -/
def optMul (a b : Option ℚ) : Option ℚ :=
  a.bind fun x => b.map fun y => x * y

/-- pandas subtraction of possibly-missing values: missing absorbs. -/
def optSub (a b : Option ℚ) : Option ℚ :=
  a.bind fun x => b.map fun y => x - y

/-- pandas `sum` over a cross-section: missing terms are skipped,
which is exactly `Option.getD 0`. -/
def nsum {n : ℕ} (f : Fin n → Option ℚ) : ℚ :=
  Finset.sum Finset.univ (fun i => (f i).getD 0)

/-- The industry×year panel after reshaping, as built in
`Programs/note.py` (section 1) and `Programs/productivity.py`: `n`
industries observed over the years `y0..y1`, each industry present from
its `entry` year on (the source's panel is balanced, `entry i = y0`;
staggered entry models an industry that appears in later rows only, the
situation handled by the base-share left joins).  `tfpG`, `capG`, `labG`
carry the log-difference growth rates; they are only read at years where
the previous year is also present, mirroring `np.log(x).diff()` being
`NaN` on the first row of each industry group. -/
structure Panel (n : ℕ) where
  y0 : ℤ
  y1 : ℤ
  entry : Fin n → ℤ
  va : Fin n → ℤ → ℚ
  capitalCost : Fin n → ℤ → ℚ
  laborCost : Fin n → ℤ → ℚ
  tfpG : Fin n → ℤ → ℚ
  capG : Fin n → ℤ → ℚ
  labG : Fin n → ℤ → ℚ

namespace Panel

variable {n : ℕ}

/-- Industry `i` has a row at year `t`. -/
def present (p : Panel n) (i : Fin n) (t : ℤ) : Prop :=
  p.entry i ≤ t ∧ p.y0 ≤ t ∧ t ≤ p.y1

instance (p : Panel n) (i : Fin n) (t : ℤ) : Decidable (p.present i t) :=
  decidable_of_iff (p.entry i ≤ t ∧ p.y0 ≤ t ∧ t ≤ p.y1) Iff.rfl

/-- Both the year-`t` row and the year-`t-1` row of industry `i` exist:
the condition under which rolling means and log-differences are
non-missing. -/
def rollOk (p : Panel n) (i : Fin n) (t : ℤ) : Prop :=
  p.present i t ∧ p.present i (t - 1)

instance (p : Panel n) (i : Fin n) (t : ℤ) : Decidable (p.rollOk i t) :=
  decidable_of_iff (p.present i t ∧ p.present i (t - 1)) Iff.rfl

/-- `df.groupby('year')['va'].transform('sum')`: nominal value added
aggregated over the industries with a row at year `t`. -/
def vaAgg (p : Panel n) (t : ℤ) : ℚ :=
  Finset.sum Finset.univ (fun i => if p.present i t then p.va i t else 0)

/-- Aggregate nominal capital cost at year `t`. -/
def ccAgg (p : Panel n) (t : ℤ) : ℚ :=
  Finset.sum Finset.univ (fun i => if p.present i t then p.capitalCost i t else 0)

/-- Aggregate nominal labor cost at year `t`. -/
def lcAgg (p : Panel n) (t : ℤ) : ℚ :=
  Finset.sum Finset.univ (fun i => if p.present i t then p.laborCost i t else 0)

/-- Current-period nominal VA share `s = va / va_agg`. -/
def share (p : Panel n) (i : Fin n) (t : ℤ) : ℚ :=
  p.va i t / p.vaAgg t

/-- Törnqvist VA weight `s_bar`, the 2-year rolling mean of `share`;
missing on the first row of each industry group. -/
def sBar? (p : Panel n) (i : Fin n) (t : ℤ) : Option ℚ :=
  if p.rollOk i t then some ((p.share i t + p.share i (t - 1)) / 2) else none

/-- Industry capital-cost share of the aggregate capital cost. -/
def omegaK (p : Panel n) (i : Fin n) (t : ℤ) : ℚ :=
  p.capitalCost i t / p.ccAgg t

/-- Industry labor-cost share of the aggregate labor cost. -/
def omegaL (p : Panel n) (i : Fin n) (t : ℤ) : ℚ :=
  p.laborCost i t / p.lcAgg t

/-- Törnqvist capital weight `omega_k_bar`. -/
def omegaKBar? (p : Panel n) (i : Fin n) (t : ℤ) : Option ℚ :=
  if p.rollOk i t then some ((p.omegaK i t + p.omegaK i (t - 1)) / 2) else none

/-- Törnqvist labor weight `omega_l_bar`. -/
def omegaLBar? (p : Panel n) (i : Fin n) (t : ℤ) : Option ℚ :=
  if p.rollOk i t then some ((p.omegaL i t + p.omegaL i (t - 1)) / 2) else none

/-- TFP growth of industry `i` at year `t`, missing on first rows. -/
def tfpG? (p : Panel n) (i : Fin n) (t : ℤ) : Option ℚ :=
  if p.rollOk i t then some (p.tfpG i t) else none

/-- Capital input growth, missing on first rows. -/
def capG? (p : Panel n) (i : Fin n) (t : ℤ) : Option ℚ :=
  if p.rollOk i t then some (p.capG i t) else none

/-- Labor input growth, missing on first rows. -/
def labG? (p : Panel n) (i : Fin n) (t : ℤ) : Option ℚ :=
  if p.rollOk i t then some (p.labG i t) else none

/-- Aggregate capital share `alpha = capital_cost_total / va_total`. -/
def alpha (p : Panel n) (t : ℤ) : ℚ := p.ccAgg t / p.vaAgg t

/-- Törnqvist-averaged aggregate capital share `alpha_bar`. -/
def alphaBar (p : Panel n) (t : ℤ) : ℚ :=
  (p.alpha t + p.alpha (t - 1)) / 2

/-- Hulten aggregate TFP growth `dlnA = sum_i s_bar_i * tfp_growth_i`. -/
def dlnA (p : Panel n) (t : ℤ) : ℚ :=
  nsum (fun i => optMul (p.sBar? i t) (p.tfpG? i t))

/-- Divisia aggregate capital growth. -/
def dlnK (p : Panel n) (t : ℤ) : ℚ :=
  nsum (fun i => optMul (p.omegaKBar? i t) (p.capG? i t))

/-- Divisia aggregate labor growth. -/
def dlnL (p : Panel n) (t : ℤ) : ℚ :=
  nsum (fun i => optMul (p.omegaLBar? i t) (p.labG? i t))

/-- Aggregate output growth from the production identity
`dlnY = dlnA + alpha_bar * dlnK + (1 - alpha_bar) * dlnL`. -/
def dlnY (p : Panel n) (t : ℤ) : ℚ :=
  p.dlnA t + p.alphaBar t * p.dlnK t + (1 - p.alphaBar t) * p.dlnL t

/-- Labor productivity growth `dlnYL = dlnY - dlnL`. -/
def dlnYL (p : Panel n) (t : ℤ) : ℚ := p.dlnY t - p.dlnL t

/-- Capital-output ratio growth `dlnKY = dlnK - dlnY`. -/
def dlnKY (p : Panel n) (t : ℤ) : ℚ := p.dlnK t - p.dlnY t

/-- TFP contribution to labor productivity, `dlnA / (1 - alpha_bar)`. -/
def tfpContrib (p : Panel n) (t : ℤ) : ℚ :=
  p.dlnA t / (1 - p.alphaBar t)

/-- Capital-deepening contribution,
`alpha_bar / (1 - alpha_bar) * dlnKY`. -/
def kyContrib (p : Panel n) (t : ℤ) : ℚ :=
  p.alphaBar t / (1 - p.alphaBar t) * p.dlnKY t

/-- Absolute residual of the Step 1 identity at year `t`. -/
def step1Resid (p : Panel n) (t : ℤ) : ℚ :=
  |p.tfpContrib t + p.kyContrib t - p.dlnYL t|

/-- The years with defined growth rates, `y0+1 .. y1` (growth at `y0`
is missing and year `y0` is excluded by `dropna`). -/
def checkYears (p : Panel n) : Finset ℤ := Finset.Icc (p.y0 + 1) p.y1

/-- The Step 1 `assert`: max absolute residual below `1e-10`. -/
def step1Ok (p : Panel n) : Prop :=
  ∀ t ∈ p.checkYears, p.step1Resid t < tol

instance (p : Panel n) : Decidable p.step1Ok :=
  decidable_of_iff (∀ t ∈ p.checkYears, p.step1Resid t < tol) Iff.rfl

/-- Step 1 aborts (an `assert` failure) unless the identity holds at
every year; on success it yields the yearly `dlnA` series. -/
def runStep1 (p : Panel n) : Option (ℤ → ℚ) :=
  if p.step1Ok then some (fun t => p.dlnA t) else none

/-- `compute_tfp_decomposition`: the within term at year `t` of a
subperiod starting at `start`, with base-share column `base`.  The start
year is forced to zero; otherwise `sum_i base_i * tfp_growth_i` with
missing terms skipped. -/
def within (p : Panel n) (base : Fin n → Option ℚ) (start t : ℤ) : ℚ :=
  if t = start then 0
  else nsum (fun i => optMul (base i) (p.tfpG? i t))

/-- `compute_tfp_decomposition`: the Baumol/composition term,
`sum_i (s_bar_i - base_i) * tfp_growth_i` with missing terms skipped. -/
def baumol (p : Panel n) (base : Fin n → Option ℚ) (start t : ℤ) : ℚ :=
  if t = start then 0
  else nsum (fun i => optMul (optSub (p.sBar? i t) (base i)) (p.tfpG? i t))

/-- `total = within + baumol`. -/
def totalDecomp (p : Panel n) (base : Fin n → Option ℚ) (start t : ℤ) : ℚ :=
  p.within base start t + p.baumol base start t

/-- The left join creating a base-share column: `s_bar` at the query
year `q`, joined back onto every row of the same industry.  An industry
with no (or a missing) `s_bar` row at `q` gets a missing base share. -/
def baseCol (p : Panel n) (q : ℤ) : Fin n → Option ℚ :=
  fun i => p.sBar? i q

/-- The `s_1961`/`b_1961` base column of the source: joined from year
1962 (`for base_year, label in [(1962, 's_1961'), ...]` in `note.py`,
`df['year'] == 1962` in `productivity.py`). -/
def b1961 (p : Panel n) : Fin n → Option ℚ := p.baseCol 1962

/-- The `s_1980`/`b_1980` base column: joined from year 1980. -/
def b1980 (p : Panel n) : Fin n → Option ℚ := p.baseCol 1980

/-- The `s_2000`/`b_2000` base column: joined from year 2000. -/
def b2000 (p : Panel n) : Fin n → Option ℚ := p.baseCol 2000

/-- The Step 2 `assert`: `|total - dlnA| < 1e-10` for every year of the
subperiod after its start year. -/
def step2Ok (p : Panel n) (base : Fin n → Option ℚ) (start endY : ℤ) : Prop :=
  ∀ t ∈ Finset.Icc (start + 1) endY, |p.totalDecomp base start t - p.dlnA t| < tol

instance (p : Panel n) (base : Fin n → Option ℚ) (start endY : ℤ) :
    Decidable (p.step2Ok base start endY) :=
  decidable_of_iff
    (∀ t ∈ Finset.Icc (start + 1) endY,
      |p.totalDecomp base start t - p.dlnA t| < tol) Iff.rfl

/-- Step 2 aborts unless the identity with `dlnA` holds over the
subperiod; on success it yields the decomposition series. -/
def runStep2 (p : Panel n) (base : Fin n → Option ℚ) (start endY : ℤ) :
    Option (ℤ → ℚ) :=
  if p.step2Ok base start endY then some (fun t => p.totalDecomp base start t)
  else none

/-- Modelled from the spec (claim of Scenario C): the Baumol term that
the spec asserts, in which an industry with a missing base share
contributes its full `s_bar_i * tfp_growth_i` to the composition term
instead of dropping out. -/
def claimBaumol (p : Panel n) (base : Fin n → Option ℚ) (start t : ℤ) : ℚ :=
  if t = start then 0
  else nsum (fun i =>
    match base i with
    | some b => optMul (optSub (p.sBar? i t) (some b)) (p.tfpG? i t)
    | none => optMul (p.sBar? i t) (p.tfpG? i t))

end Panel

/-!
## Domar weight solver and allocative wedge (`Programs/io_can.py`)

Per year, the source pivots the cost-share and revenue-share tables into
square matrices over industries ∪ {capital, labor} (the two synthetic
codes sort last, giving the trailing two rows/columns sliced off with
`[:-2, :-2]`), then computes
`lambda_tilde = b^T (I - Omega_tilde)^{-1}` with `np.linalg.inv`, which
raises `LinAlgError` on an exactly singular input.  We embed
`np.linalg.inv` as `matInverse`, failing precisely on determinant zero,
and the pivot orientation as in the source: row index = using industry,
column index = supplying industry.
-/

/-- `np.linalg.inv` in exact arithmetic: the inverse when it exists,
failure (the raised `LinAlgError`) exactly on a singular input. -/
def matInverse {m : ℕ} (A : Matrix (Fin m) (Fin m) ℚ) :
    Option (Matrix (Fin m) (Fin m) ℚ) :=
  if A.det = 0 then none else some (A.det⁻¹ • A.adjugate)

/-- Index of the synthetic `capital` row/column (third-to-last... the
second-to-last position, `n`). -/
def capIdx (n : ℕ) : Fin (n + 2) := ⟨n, by omega⟩

/-- Index of the synthetic `labor` row/column (last position). -/
def labIdx (n : ℕ) : Fin (n + 2) := ⟨n + 1, by omega⟩

/-- The augmented VA-share vector: `b = va / va.sum()` over the `n` real
industries, with two trailing zeros appended for the capital and labor
synthetic columns (`b = np.append(b, [0, 0])`). -/
def bAug {n : ℕ} (va : Fin n → ℚ) : Fin (n + 2) → ℚ :=
  fun j =>
    if h : (j : ℕ) < n then va ⟨j, h⟩ / Finset.sum Finset.univ va else 0

/-- One year's Domar-weight solve:
`lambda_tilde = b (I - Omega_tilde)^{-1}`, failing when
`np.linalg.inv` raises on a singular `I - Omega_tilde`. -/
def lambdaSolve {n : ℕ} (Omega : Matrix (Fin (n + 2)) (Fin (n + 2)) ℚ)
    (va : Fin n → ℚ) : Option (Fin (n + 2) → ℚ) :=
  (matInverse (1 - Omega)).map (fun M => Matrix.vecMul (bAug va) M)

/-- The per-year solved Domar weights of the year-indexed pipeline. -/
def solvedLambda {n : ℕ} (OmegaY : ℤ → Matrix (Fin (n + 2)) (Fin (n + 2)) ℚ)
    (vaY : ℤ → Fin n → ℚ) (t : ℤ) : Option (Fin (n + 2) → ℚ) :=
  lambdaSolve (OmegaY t) (vaY t)

/-- `df_lambda.groupby('naics')['lambda'].transform(rolling(2).mean())`:
the weight actually used downstream is the mean of this year's and the
prior year's solved weight, missing when either is missing. -/
def usedLambda {n : ℕ} (OmegaY : ℤ → Matrix (Fin (n + 2)) (Fin (n + 2)) ℚ)
    (vaY : ℤ → Fin n → ℚ) (t : ℤ) : Option (Fin (n + 2) → ℚ) :=
  match solvedLambda OmegaY vaY t, solvedLambda OmegaY vaY (t - 1) with
  | some w, some w' => some (fun j => (w j + w' j) / 2)
  | _, _ => none

/-- The real-industry block of a full matrix: the slice `[:-2, :-2]`
dropping the trailing capital and labor rows and columns. -/
def realBlock {n : ℕ} (M : Matrix (Fin (n + 2)) (Fin (n + 2)) ℚ) :
    Matrix (Fin n) (Fin n) ℚ :=
  Matrix.of fun i j => M (Fin.castAdd 2 i) (Fin.castAdd 2 j)

/-- `np.sum(..., axis=1)`: the row sums of a matrix. -/
def rowSum {n : ℕ} (M : Matrix (Fin n) (Fin n) ℚ) (i : Fin n) : ℚ :=
  Finset.sum Finset.univ (fun j => M i j)

/-- The allocative wedge as computed in the source:
`numerator = np.sum(Omega_tilde[:-2,:-2] @ Omega[:-2,:-2], axis=1)`,
`denominator = np.sum(Omega[:-2,:-2] @ Omega[:-2,:-2], axis=1)`,
`wedge = numerator / denominator`. -/
def wedge {n : ℕ} (Ct Rt : Matrix (Fin (n + 2)) (Fin (n + 2)) ℚ)
    (i : Fin n) : ℚ :=
  rowSum (realBlock Ct * realBlock Rt) i / rowSum (realBlock Rt * realBlock Rt) i

/-- Modelled from the spec (claim C5): the wedge as the ratio of inner
products of the i-th columns of the cost-share and revenue-share
matrices.  In the spec's (supplier, user) orientation a user's column is
a row of the source's pivot, so the claimed quantity is the inner
product of the i-th rows of the pivoted real blocks. -/
def wedgeClaim {n : ℕ} (Ct Rt : Matrix (Fin (n + 2)) (Fin (n + 2)) ℚ)
    (i : Fin n) : ℚ :=
  Finset.sum Finset.univ (fun k => realBlock Ct i k * realBlock Rt i k) /
    Finset.sum Finset.univ (fun k => realBlock Rt i k * realBlock Rt i k)

/-!
## Cost-share construction (`Programs/io_can.py`, flow → shares)

`df['cost_share'] = df.groupby(['year','use'])['value'].transform(x / x.sum())`
followed by `df.loc[df['cost_share'].isna(), 'cost_share'] = 0`.  In
float arithmetic `0/0` is `NaN` (caught by the fill) while `c/0` for
`c ≠ 0` is `±inf` (not caught); we embed that float semantics
explicitly. -/

/-- A pandas float cell: an actual value, `NaN`, or a signed infinity. -/
inductive PCell where
  | val (q : ℚ)
  | nan
  | pinf
  | ninf
deriving DecidableEq

/-- Float division of two value cells: `0/0 = NaN`, `c/0 = ±inf`. -/
def pdiv (a b : ℚ) : PCell :=
  if b = 0 then (if a = 0 then PCell.nan else if 0 < a then PCell.pinf else PCell.ninf)
  else PCell.val (a / b)

/-- `df.loc[df[c].isna(), c] = 0`: replace `NaN` (only) by zero. -/
def fillNaN : PCell → PCell
  | PCell.nan => PCell.val 0
  | c => c

/-- Column total of the assembled flow matrix for user `u`
(the `x.sum()` of the groupby over (year, user)). -/
def colTotal {m : ℕ} (value : Fin m → Fin m → ℚ) (u : Fin m) : ℚ :=
  Finset.sum Finset.univ (fun s => value s u)

/-- The cost share of cell (supplier `s`, user `u`): the cell value
divided by the user's column total, with `NaN` filled by zero. -/
def costShare {m : ℕ} (value : Fin m → Fin m → ℚ) (s u : Fin m) : PCell :=
  fillNaN (pdiv (value s u) (colTotal value u))

/-!
## Classification crosswalk (`Programs/io_can.py`, `Programs/productivity.py`)

Two mechanisms appear in the source for a raw code with no crosswalk
entry: `io_can.py` keeps only mapped codes
(`df = df[df['naics'].isin(mapping.keys())]` then `.map`), and
`productivity.py`/`note.py` map directly
(`df['naics'] = df['industry'].map(...)`), yielding a null code.
Neither raises. -/

/-- `io_can.py`: filter the table to codes with a crosswalk entry, then
map them. -/
def codeFilterMap (xwalk : String → Option String) (rows : List String) :
    List String :=
  (rows.filter (fun c => (xwalk c).isSome)).filterMap xwalk

/-- `productivity.py` / `note.py`: `Series.map`, null for unmapped. -/
def mapToNull (xwalk : String → Option String) (rows : List String) :
    List (Option String) :=
  rows.map xwalk

/-- Modelled from the spec: `canonicalize` with the `UnmappedCodeError`
taxonomy (§4.1/§7) that the claim asserts — a raw code with no
crosswalk entry that is not on the explicit drop list is a fatal error,
surfaced immediately; otherwise drop the drop-listed codes and map the
rest.  No such error path exists in the source. -/
def checkedCanonicalize (xwalk : String → Option String)
    (dropList : List String) (rows : List String) :
    Except Unit (List String) :=
  if rows.all (fun c => (xwalk c).isSome || dropList.contains c) then
    Except.ok (codeFilterMap xwalk (rows.filter (fun c => ¬ dropList.contains c)))
  else
    Except.error ()

/-!
## Concrete panels used as witnesses and counterexamples
-/

/-- A 2-industry, 3-year balanced panel: VA shares (3/5, 2/5) in years
0 and 1, shifting to (2/5, 3/5) in year 2; TFP growth 1/20 and 0; this
is the spec's Scenario A with base year 1. -/
def pW : Panel 2 where
  y0 := 0
  y1 := 2
  entry := fun _ => 0
  va := fun i t =>
    if (i : ℕ) = 0 then (if t = 2 then 4 else 6) else (if t = 2 then 6 else 4)
  capitalCost := fun _ _ => 1
  laborCost := fun _ _ => 2
  tfpG := fun i _ => if (i : ℕ) = 0 then 1 / 20 else 0
  capG := fun _ _ => 1 / 10
  labG := fun _ _ => 0

/-- A 2-industry panel with staggered entry: industry 1 enters at year
1, after the base year of the subperiod starting at 0, so its base
share (joined from year 1, the first year with a defined Törnqvist
share for the 0-based subperiod) is missing.  Its TFP growth at year 2
is 1/10 with Törnqvist share 3/5. -/
def pC6 : Panel 2 where
  y0 := 0
  y1 := 2
  entry := fun i => if (i : ℕ) = 0 then 0 else 1
  va := fun i _ => if (i : ℕ) = 0 then 2 else 3
  capitalCost := fun _ _ => 1
  laborCost := fun _ _ => 1
  tfpG := fun i _ => if (i : ℕ) = 0 then 0 else 1 / 10
  capG := fun _ _ => 0
  labG := fun _ _ => 0

/-- A balanced 2-industry panel over 1961-1963 whose VA shares move
between 1961 and 1962, so that the Törnqvist share at 1962 differs from
the (missing) one at 1961. -/
def pC7 : Panel 2 where
  y0 := 1961
  y1 := 1963
  entry := fun _ => 1961
  va := fun i t => if (i : ℕ) = 0 then (if t = 1962 then 3 else 1) else 2
  capitalCost := fun _ _ => 1
  laborCost := fun _ _ => 1
  tfpG := fun _ _ => 0
  capG := fun _ _ => 0
  labG := fun _ _ => 0

/-!
## Claims C1, C2, C10, C6, C7: the growth-accounting decomposer
-/

/-- The Step 1 residual is exactly zero whenever the Törnqvist capital
share is not 1: the identity is algebraic in `dlnA`, `dlnK`, `dlnL` and
`alpha_bar`, however those were computed. -/
theorem Panel.step1_exact {n : ℕ} (p : Panel n) (t : ℤ)
    (h : p.alphaBar t ≠ 1) :
    p.tfpContrib t + p.kyContrib t - p.dlnYL t = 0 := by
  have h1 : (1 : ℚ) - p.alphaBar t ≠ 0 := sub_ne_zero.mpr (Ne.symm h)
  simp only [Panel.tfpContrib, Panel.kyContrib, Panel.dlnYL, Panel.dlnKY,
    Panel.dlnY]
  field_simp
  ring

/-- C1: for every year with defined growth rates in the built panel,
with `dlnY = dlnA + alpha*dlnK + (1-alpha)*dlnL`, `dlnYL = dlnY - dlnL`,
`dlnKY = dlnK - dlnY`, `tfp_contrib = dlnA/(1-alpha)` and
`ky_contrib = alpha/(1-alpha)*dlnKY`, the Pass 1 identity
`|tfp_contrib + ky_contrib - dlnYL| < 1e-10` holds, and a violation
above the tolerance aborts the computation (Step 1 returns its yearly
table only when the check passes, and returns nothing on a violating
panel). -/
theorem C1_pass1_identity {n : ℕ} (p : Panel n)
    (halpha : ∀ t ∈ p.checkYears, p.alphaBar t ≠ 1) :
    (∀ t ∈ p.checkYears,
      |p.tfpContrib t + p.kyContrib t - p.dlnYL t| < tol)
    ∧ p.runStep1 = some (fun t => p.dlnA t)
    ∧ (∀ (m : ℕ) (q : Panel m), ¬ q.step1Ok → q.runStep1 = none) := by
  have key : ∀ t ∈ p.checkYears,
      |p.tfpContrib t + p.kyContrib t - p.dlnYL t| < tol := by
    intro t ht
    rw [p.step1_exact t (halpha t ht), abs_zero]
    norm_num [tol]
  refine ⟨key, ?_, ?_⟩
  · rw [Panel.runStep1, if_pos]
    intro t ht
    exact key t ht
  · intro m q hq
    rw [Panel.runStep1, if_neg hq]

/-- The capital share of the concrete panel `pW` is 1/5 at every year
of its check window, in particular never 1. -/
theorem pW_alphaBar_ne_one : ∀ t ∈ pW.checkYears, pW.alphaBar t ≠ 1 := by
  intro t ht
  simp only [Panel.checkYears, pW] at ht
  obtain ⟨h1, h2⟩ := Finset.mem_Icc.mp ht
  interval_cases t <;>
    norm_num [Panel.alphaBar, Panel.alpha, Panel.ccAgg, Panel.vaAgg,
      Panel.present, pW, Fin.sum_univ_two]

/-- Witness for C1 on the concrete panel `pW`. -/
theorem C1_pass1_identity_witness :
    (∀ t ∈ pW.checkYears, pW.alphaBar t ≠ 1)
    ∧ (∀ t ∈ pW.checkYears,
        |pW.tfpContrib t + pW.kyContrib t - pW.dlnYL t| < tol) :=
  ⟨pW_alphaBar_ne_one, (C1_pass1_identity pW pW_alphaBar_ne_one).1⟩

/-- C2: for a subperiod `[start, end]` with base column `base`, at every
year `start < t ≤ end` at which every industry has a defined base
share, Törnqvist share and TFP growth (the situation of the source's
built, balanced panel), the Pass 2 decomposition satisfies
`total(t) = within(t) + baumol(t) = dlnA(t)` exactly, hence
`|total(t) - dlnA(t)| < 1e-10`, where `dlnA` is the Pass 1 Hulten
aggregate from the same panel; and a violation of the tolerance aborts
(Step 2 returns nothing on any violating input). -/
theorem C2_pass2_identity {n : ℕ} (p : Panel n) (base : Fin n → Option ℚ)
    (start endY t : ℤ) (ht1 : start < t) (ht2 : t ≤ endY)
    (hbase : ∀ i, (base i).isSome)
    (hroll : ∀ i, p.rollOk i t) :
    p.totalDecomp base start t = p.dlnA t
    ∧ |p.totalDecomp base start t - p.dlnA t| < tol
    ∧ (∀ (m : ℕ) (q : Panel m) (b : Fin m → Option ℚ) (s e : ℤ),
        ¬ q.step2Ok b s e → q.runStep2 b s e = none) := by
  have hts : t ≠ start := ht1.ne'
  have key : p.totalDecomp base start t = p.dlnA t := by
    simp only [Panel.totalDecomp, Panel.within, Panel.baumol, if_neg hts,
      nsum, Panel.dlnA]
    rw [← Finset.sum_add_distrib]
    refine Finset.sum_congr rfl (fun i _ => ?_)
    obtain ⟨bv, hbv⟩ := Option.isSome_iff_exists.mp (hbase i)
    simp only [Panel.sBar?, Panel.tfpG?, if_pos (hroll i), hbv, optMul, optSub,
      Option.some_bind, Option.map_some', Option.getD_some]
    ring
  refine ⟨key, ?_, ?_⟩
  · rw [key, sub_self, abs_zero]
    norm_num [tol]
  · intro m q b s e hq
    rw [Panel.runStep2, if_neg hq]

/-- Witness for C2 on the concrete panel `pW`, subperiod `[1, 2]` with
base shares frozen at year 1. -/
theorem C2_pass2_identity_witness :
    (∀ i, ((pW.baseCol 1) i).isSome)
    ∧ pW.totalDecomp (pW.baseCol 1) 1 2 = pW.dlnA 2 := by
  have hbase : ∀ i, ((pW.baseCol 1) i).isSome := by
    intro i
    norm_num [Panel.baseCol, Panel.sBar?, Panel.rollOk, Panel.present, pW]
  have hroll : ∀ i, pW.rollOk i 2 := by
    intro i
    norm_num [Panel.rollOk, Panel.present, pW]
  exact ⟨hbase,
    (C2_pass2_identity pW (pW.baseCol 1) 1 2 2 (by norm_num) le_rfl hbase hroll).1⟩

/-- C10 (Scenario A): on the two-industry panel `pW` with base-year
Törnqvist VA shares 3/5 and 2/5, next-year shares 1/2 and 1/2, and TFP
growth 1/20 and 0, the decomposer returns `within = 3/100 = 0.03`,
`baumol = -1/200 = -0.005` and `total = 1/40 = 0.025`. -/
theorem C10_scenarioA :
    pW.within (pW.baseCol 1) 1 2 = 3 / 100
    ∧ pW.baumol (pW.baseCol 1) 1 2 = -(1 / 200)
    ∧ pW.totalDecomp (pW.baseCol 1) 1 2 = 1 / 40 := by
  norm_num [Panel.totalDecomp, Panel.within, Panel.baumol, Panel.baseCol,
    Panel.sBar?, Panel.tfpG?, Panel.rollOk, Panel.present, Panel.share,
    Panel.vaAgg, pW, nsum, optMul, optSub, Fin.sum_univ_two]

/-- C6 counterexample: on the staggered panel `pC6`, industry 1 enters
after the base year, so its base share is missing; at year 2 it has a
defined Törnqvist share 3/5 and TFP growth 1/10, yet the code's Baumol
term is 0 — not the full `wbar * growth = 3/50` the claim asserts — and
the decomposition total is 0 while the Hulten aggregate `dlnA` is 3/50,
so the industry is dropped from the aggregate total. -/
theorem C6_counterexample :
    (pC6.baseCol 1) 1 = none
    ∧ pC6.sBar? 1 2 = some (3 / 5)
    ∧ pC6.tfpG? 1 2 = some (1 / 10)
    ∧ pC6.baumol (pC6.baseCol 1) 0 2 = 0
    ∧ pC6.claimBaumol (pC6.baseCol 1) 0 2 = 3 / 50
    ∧ pC6.totalDecomp (pC6.baseCol 1) 0 2 = 0
    ∧ pC6.dlnA 2 = 3 / 50 := by
  norm_num [Panel.totalDecomp, Panel.within, Panel.baumol, Panel.claimBaumol,
    Panel.dlnA, Panel.baseCol, Panel.sBar?, Panel.tfpG?, Panel.rollOk,
    Panel.present, Panel.share, Panel.vaAgg, pC6, nsum, optMul, optSub,
    Fin.sum_univ_two]

/-- C6 amended: an industry with a missing (null) base-period share
drops out of the decomposition entirely — the missing base share
propagates into both the within and the Baumol term and the sums skip
it — so for every year other than the start year the total equals the
sum of `s_bar_i * tfp_growth_i` restricted to industries with a defined
base share; industries entering after the base year contribute nothing
to within, Baumol, or the total. -/
theorem C6_amended {n : ℕ} (p : Panel n) (base : Fin n → Option ℚ)
    (start t : ℤ) (ht : t ≠ start) :
    p.totalDecomp base start t
      = Finset.sum Finset.univ (fun i =>
          if (base i).isSome then (optMul (p.sBar? i t) (p.tfpG? i t)).getD 0
          else 0) := by
  simp only [Panel.totalDecomp, Panel.within, Panel.baumol, if_neg ht, nsum]
  rw [← Finset.sum_add_distrib]
  refine Finset.sum_congr rfl (fun i _ => ?_)
  cases hb : base i with
  | none => simp [optMul, optSub, hb]
  | some bv =>
    by_cases hr : p.rollOk i t
    · simp only [Panel.sBar?, Panel.tfpG?, if_pos hr, hb, optMul, optSub,
        Option.some_bind, Option.map_some', Option.getD_some,
        Option.isSome_some, if_true]
      ring
    · simp [Panel.sBar?, Panel.tfpG?, if_neg hr, optMul, optSub, hb]

/-- Witness for the amended C6 on the staggered panel `pC6`. -/
theorem C6_amended_witness :
    (2 : ℤ) ≠ 0
    ∧ pC6.totalDecomp (pC6.baseCol 1) 0 2
      = Finset.sum Finset.univ (fun i =>
          if ((pC6.baseCol 1) i).isSome
          then (optMul (pC6.sBar? i 2) (pC6.tfpG? i 2)).getD 0 else 0) :=
  ⟨by norm_num, C6_amended pC6 (pC6.baseCol 1) 0 2 (by norm_num)⟩

/-- C7 counterexample: on the balanced panel `pC7` (years 1961-1963),
the `b_1961` base column of industry 0 is `some (7/15)`, the Törnqvist
share joined from year 1962, whereas the Törnqvist share at year 1961
itself is missing — the base column is not the share frozen at the
subperiod start year 1961. -/
theorem C7_counterexample :
    pC7.b1961 0 = some (7 / 15)
    ∧ pC7.sBar? 0 1961 = none
    ∧ pC7.b1961 0 ≠ pC7.sBar? 0 1961 := by
  have h1 : pC7.b1961 0 = some (7 / 15) := by
    norm_num [Panel.b1961, Panel.baseCol, Panel.sBar?, Panel.rollOk,
      Panel.present, Panel.share, Panel.vaAgg, pC7, Fin.sum_univ_two]
  have h2 : pC7.sBar? 0 1961 = none := by
    norm_num [Panel.sBar?, Panel.rollOk, Panel.present, pC7]
  refine ⟨h1, h2, ?_⟩
  rw [h1, h2]
  exact Option.some_ne_none _

/-- C7 amended: the Törnqvist share is always missing at the panel's
first year, and the base columns are created by left-joining the
Törnqvist share at year 1962 for the 1961 subperiod (the first year at
which it is defined) and at the start year itself for the 1980 and 2000
subperiods, joined back onto every row of the same industry. -/
theorem C7_amended {n : ℕ} (p : Panel n) (i : Fin n) :
    p.sBar? i p.y0 = none
    ∧ p.b1961 i = p.sBar? i 1962
    ∧ p.b1980 i = p.sBar? i 1980
    ∧ p.b2000 i = p.sBar? i 2000 := by
  refine ⟨?_, rfl, rfl, rfl⟩
  have h : ¬ p.rollOk i p.y0 := by
    simp only [Panel.rollOk, Panel.present, not_and, not_le]
    omega
  simp [Panel.sBar?, h]

/-!
## Claims C3, C4, C5: Domar weight solver and wedge
-/

/-- `matInverse` agrees with the matrix inverse on a nonsingular
input. -/
theorem matInverse_of_det_ne {m : ℕ} (A : Matrix (Fin m) (Fin m) ℚ)
    (h : A.det ≠ 0) : matInverse A = some A⁻¹ := by
  rw [matInverse, if_neg h, Matrix.inv_def, Ring.inverse_eq_inv]

/-- `bAug` at a real-industry index is the normalized VA share. -/
theorem bAug_castAdd {n : ℕ} (va : Fin n → ℚ) (i : Fin n) :
    bAug va (Fin.castAdd 2 i) = va i / Finset.sum Finset.univ va := by
  have h : ((Fin.castAdd 2 i : Fin (n + 2)) : ℕ) < n := by
    simp
  simp only [bAug]
  rw [dif_pos h]
  have hi : (⟨((Fin.castAdd 2 i : Fin (n + 2)) : ℕ), h⟩ : Fin n) = i :=
    Fin.ext (by simp)
  rw [hi]

/-- `bAug` vanishes at the synthetic capital index. -/
theorem bAug_capIdx {n : ℕ} (va : Fin n → ℚ) : bAug va (capIdx n) = 0 := by
  simp only [bAug, capIdx]
  exact dif_neg (by show ¬ (n < n); omega)

/-- `bAug` vanishes at the synthetic labor index. -/
theorem bAug_labIdx {n : ℕ} (va : Fin n → ℚ) : bAug va (labIdx n) = 0 := by
  simp only [bAug, labIdx]
  exact dif_neg (by show ¬ (n + 1 < n); omega)

/-- C3: for every year whose system is solvable, the Domar weight
solver normalizes the VA vector to sum to 1 over real industries,
appends two trailing zeros for the synthetic capital and labor columns,
and computes `lambda_tilde = b (I - Omega_tilde)^{-1}` — equivalently,
the unique solution `w` of the dense linear system
`w (I - Omega_tilde) = b`; and the weight actually used downstream (for
each industry and for the aggregate capital/labor entries) is the
2-year centered mean of this year's and the prior year's solved
weight. -/
theorem C3_domar_solver {n : ℕ}
    (OmegaY : ℤ → Matrix (Fin (n + 2)) (Fin (n + 2)) ℚ)
    (vaY : ℤ → Fin n → ℚ) (t : ℤ)
    (hdet : ((1 : Matrix (Fin (n + 2)) (Fin (n + 2)) ℚ) - OmegaY t).det ≠ 0)
    (hdetp : ((1 : Matrix (Fin (n + 2)) (Fin (n + 2)) ℚ) - OmegaY (t - 1)).det ≠ 0)
    (hva : Finset.sum Finset.univ (vaY t) ≠ 0) :
    ∃ w wp,
      solvedLambda OmegaY vaY t = some w
      ∧ solvedLambda OmegaY vaY (t - 1) = some wp
      ∧ Matrix.vecMul w (1 - OmegaY t) = bAug (vaY t)
      ∧ (∀ v, Matrix.vecMul v (1 - OmegaY t) = bAug (vaY t) → v = w)
      ∧ Finset.sum Finset.univ
          (fun i : Fin n => bAug (vaY t) (Fin.castAdd 2 i)) = 1
      ∧ bAug (vaY t) (capIdx n) = 0
      ∧ bAug (vaY t) (labIdx n) = 0
      ∧ usedLambda OmegaY vaY t = some (fun j => (w j + wp j) / 2) := by
  have hu : IsUnit ((1 : Matrix (Fin (n + 2)) (Fin (n + 2)) ℚ) - OmegaY t).det :=
    isUnit_iff_ne_zero.mpr hdet
  have e1 : solvedLambda OmegaY vaY t
      = some (Matrix.vecMul (bAug (vaY t)) (1 - OmegaY t)⁻¹) := by
    rw [solvedLambda, lambdaSolve, matInverse_of_det_ne _ hdet, Option.map_some']
  have e2 : solvedLambda OmegaY vaY (t - 1)
      = some (Matrix.vecMul (bAug (vaY (t - 1))) (1 - OmegaY (t - 1))⁻¹) := by
    rw [solvedLambda, lambdaSolve, matInverse_of_det_ne _ hdetp, Option.map_some']
  refine ⟨Matrix.vecMul (bAug (vaY t)) (1 - OmegaY t)⁻¹,
    Matrix.vecMul (bAug (vaY (t - 1))) (1 - OmegaY (t - 1))⁻¹,
    e1, e2, ?_, ?_, ?_, bAug_capIdx _, bAug_labIdx _, ?_⟩
  · rw [Matrix.vecMul_vecMul, Matrix.nonsing_inv_mul _ hu, Matrix.vecMul_one]
  · intro v hv
    have h := congrArg (fun u => Matrix.vecMul u (1 - OmegaY t)⁻¹) hv
    simpa [Matrix.vecMul_vecMul, Matrix.mul_nonsing_inv _ hu,
      Matrix.vecMul_one] using h
  · simp only [bAug_castAdd]
    rw [← Finset.sum_div, div_self hva]
  · rw [usedLambda, e1, e2]

/-- The concrete 3×3 cost-share matrix (one real industry plus capital
and labor) used for the C3 witness: the industry's costs are half
capital, a quarter labor. -/
def OmegaC3 : Matrix (Fin 3) (Fin 3) ℚ := !![0, 1/2, 1/4; 0, 0, 0; 0, 0, 0]

/-- The concrete one-industry VA vector used for the C3 witness. -/
def vaC3 : Fin 1 → ℚ := ![4]

/-- Witness for C3 on a concrete 3×3 system. -/
theorem C3_domar_solver_witness :
    ((1 : Matrix (Fin 3) (Fin 3) ℚ) - OmegaC3).det ≠ 0
    ∧ Finset.sum Finset.univ vaC3 ≠ 0
    ∧ ∃ w wp,
        solvedLambda (fun _ => OmegaC3) (fun _ => vaC3) 1 = some w
        ∧ solvedLambda (fun _ => OmegaC3) (fun _ => vaC3) (1 - 1) = some wp
        ∧ Matrix.vecMul w (1 - OmegaC3) = bAug vaC3
        ∧ usedLambda (fun _ => OmegaC3) (fun _ => vaC3) 1
          = some (fun j => (w j + wp j) / 2) := by
  have hM : (1 : Matrix (Fin 3) (Fin 3) ℚ) - OmegaC3
      = !![1, -(1/2), -(1/4); 0, 1, 0; 0, 0, 1] := by
    ext i j
    fin_cases i <;> fin_cases j <;>
      norm_num [OmegaC3, Matrix.one_apply, Matrix.vecHead, Matrix.vecTail] <;>
      decide
  have hdet : ((1 : Matrix (Fin 3) (Fin 3) ℚ) - OmegaC3).det ≠ 0 := by
    rw [hM]
    norm_num [Matrix.det_fin_three, Matrix.vecHead, Matrix.vecTail]
  have hva : Finset.sum Finset.univ vaC3 ≠ 0 := by
    norm_num [vaC3]
  obtain ⟨w, wp, h1, h2, h3, _, _, _, _, h8⟩ :=
    C3_domar_solver (fun _ => OmegaC3) (fun _ => vaC3) 1 hdet hdet hva
  exact ⟨hdet, hva, w, wp, h1, h2, h3, h8⟩

/-- C4 counterexample: the all-zero 3×3 cost-share matrix — exactly the
matrix produced for an industry with no recorded activity after
zero-fill and the all-zero-shares rule — has every row and column zero,
yet `I - Omega` is the identity, `np.linalg.inv` does not raise, and
the solver returns the finite weight vector `bAug va`; a zero
row/column does not make the solve fail as the claim asserts. -/
theorem C4_counterexample :
    (∀ i : Fin 3, (0 : Matrix (Fin 3) (Fin 3) ℚ) i 0 = 0)
    ∧ (∀ j : Fin 3, (0 : Matrix (Fin 3) (Fin 3) ℚ) 0 j = 0)
    ∧ lambdaSolve (0 : Matrix (Fin 3) (Fin 3) ℚ) ![2] = some (bAug ![2]) := by
  refine ⟨fun i => rfl, fun j => rfl, ?_⟩
  have h1 : (1 : Matrix (Fin 3) (Fin 3) ℚ) - 0 = 1 := by simp
  have hdet : ((1 : Matrix (Fin 3) (Fin 3) ℚ)).det ≠ 0 := by simp
  have hinv : (1 : Matrix (Fin 3) (Fin 3) ℚ)⁻¹ = 1 := by
    rw [Matrix.inv_def, Matrix.det_one, Matrix.adjugate_one, Ring.inverse_one,
      one_smul]
  rw [lambdaSolve, h1, matInverse_of_det_ne _ hdet, hinv,
    Option.map_some', Matrix.vecMul_one]

/-- C4 amended: the Domar solve fails — `np.linalg.inv` raises, though
as numpy's `LinAlgError`, no `SingularIOMatrixError` exists in the
source — exactly when `(I - Omega)` is singular (determinant zero), and
otherwise returns finite weights; an all-zero row or column of the
cost-share matrix does not by itself make `(I - Omega)` singular. -/
theorem C4_amended {n : ℕ} (Omega : Matrix (Fin (n + 2)) (Fin (n + 2)) ℚ)
    (va : Fin n → ℚ) :
    lambdaSolve Omega va = none
      ↔ ((1 : Matrix (Fin (n + 2)) (Fin (n + 2)) ℚ) - Omega).det = 0 := by
  rw [lambdaSolve, matInverse]
  by_cases h : ((1 : Matrix (Fin (n + 2)) (Fin (n + 2)) ℚ) - Omega).det = 0
  · rw [if_pos h, Option.map_none']
    exact iff_of_true rfl h
  · rw [if_neg h, Option.map_some']
    exact iff_of_false (Option.some_ne_none _) h

/-- Row sums of a matrix product: the source's
`np.sum(A @ B, axis=1)` weighs each row of `A` by the row sums of
`B`. -/
theorem rowSum_mul {m : ℕ} (A B : Matrix (Fin m) (Fin m) ℚ) (i : Fin m) :
    rowSum (A * B) i = Finset.sum Finset.univ (fun k => A i k * rowSum B k) := by
  simp only [rowSum, Matrix.mul_apply]
  rw [Finset.sum_comm]
  exact Finset.sum_congr rfl (fun k _ => (Finset.mul_sum _ _ _).symm)

/-- The concrete cost-share matrix (two real industries plus capital
and labor) for the C5 counterexample: rows are users, each real row
sums to 1 including its capital and labor cost shares. -/
def CtC5 : Matrix (Fin 4) (Fin 4) ℚ :=
  !![1/4, 1/4, 1/4, 1/4; 0, 1/2, 1/4, 1/4; 0, 0, 0, 0; 0, 0, 0, 0]

/-- The concrete revenue-share matrix for the C5 counterexample. -/
def RtC5 : Matrix (Fin 4) (Fin 4) ℚ :=
  !![1/2, 1/4, 0, 0; 1/4, 1/2, 0, 0; 0, 0, 0, 0; 0, 0, 0, 0]

/-- C5 counterexample: on the concrete matrices `CtC5`, `RtC5` the
wedge the source computes for industry 0 is 2/3, while the claimed
ratio of inner products of the corresponding cost- and revenue-share
profiles is 3/5 — the two disagree, because the source multiplies the
matrices and sums rows instead of taking entrywise inner products. -/
theorem C5_counterexample :
    wedge CtC5 RtC5 0 = 2 / 3
    ∧ wedgeClaim CtC5 RtC5 0 = 3 / 5
    ∧ wedge CtC5 RtC5 0 ≠ wedgeClaim CtC5 RtC5 0 := by
  have e0 : Fin.castAdd 2 (0 : Fin 2) = (0 : Fin 4) := rfl
  have e1 : Fin.castAdd 2 (1 : Fin 2) = (1 : Fin 4) := rfl
  have h1 : wedge CtC5 RtC5 0 = 2 / 3 := by
    norm_num [wedge, rowSum, realBlock, Matrix.mul_apply, Matrix.of_apply,
      Fin.sum_univ_two, e0, e1, CtC5, RtC5, Matrix.vecHead, Matrix.vecTail]
  have h2 : wedgeClaim CtC5 RtC5 0 = 3 / 5 := by
    norm_num [wedgeClaim, realBlock, Matrix.of_apply, Fin.sum_univ_two,
      e0, e1, CtC5, RtC5, Matrix.vecHead, Matrix.vecTail]
  refine ⟨h1, h2, ?_⟩
  rw [h1, h2]
  norm_num

/-- C5 amended: for every pair of full matrices the source's wedge for
real industry `i` equals the ratio of the `i`-th row sums of the
products of the real blocks — equivalently, the cost-share row of `i`
weighted by the revenue matrix's row sums, over the revenue-share row
of `i` weighted the same way — computed on the real-industry block
only, not the ratio of inner products of matching share profiles. -/
theorem C5_amended {n : ℕ} (Ct Rt : Matrix (Fin (n + 2)) (Fin (n + 2)) ℚ)
    (i : Fin n) :
    wedge Ct Rt i
      = Finset.sum Finset.univ
          (fun k => realBlock Ct i k * rowSum (realBlock Rt) k)
        / Finset.sum Finset.univ
          (fun k => realBlock Rt i k * rowSum (realBlock Rt) k) := by
  rw [wedge, rowSum_mul, rowSum_mul]

/-!
## Claims C8, C9: crosswalk totality and cost-share construction
-/

/-- A one-entry crosswalk for the C8 counterexample. -/
def xwalkC8 : String → Option String := fun c => if c = "A" then some "na" else none

/-- The explicit drop list for the C8 counterexample. -/
def dropC8 : List String := ["D"]

/-- A filtered table containing the mapped code `A` and the unmapped,
not-drop-listed code `X`. -/
def rowsC8 : List String := ["A", "X"]

/-- C8 counterexample: the raw code `X` has no crosswalk entry and is
not on the drop list, yet the source raises nothing: `io_can.py`'s
`isin` filter silently removes the row and continues, `productivity.py`
maps it to a null code, whereas the claimed `canonicalize` with
`UnmappedCodeError` would fail on this input. -/
theorem C8_counterexample :
    xwalkC8 "X" = none
    ∧ ¬ ("X" ∈ dropC8)
    ∧ codeFilterMap xwalkC8 rowsC8 = ["na"]
    ∧ mapToNull xwalkC8 rowsC8 = [some "na", none]
    ∧ checkedCanonicalize xwalkC8 dropC8 rowsC8 = Except.error () := by
  refine ⟨rfl, ?_, rfl, rfl, rfl⟩
  intro h
  simp [dropC8] at h

/-- Filtering to the mapped codes and then mapping is `filterMap`. -/
theorem filter_isSome_filterMap (xwalk : String → Option String)
    (rows : List String) :
    (rows.filter (fun c => (xwalk c).isSome)).filterMap xwalk
      = rows.filterMap xwalk := by
  induction rows with
  | nil => rfl
  | cons a as ih =>
    by_cases hs : (xwalk a).isSome
    · obtain ⟨v, hv⟩ := Option.isSome_iff_exists.mp hs
      simp [List.filter_cons, hs, List.filterMap_cons, hv, ih]
    · have hn : xwalk a = none := Option.not_isSome_iff_eq_none.mp hs
      simp [List.filter_cons, hs, List.filterMap_cons, hn, ih]

/-- Removing the occurrences of an unmapped code does not change the
mapped output. -/
theorem filterMap_drop_none (xwalk : String → Option String)
    (rows : List String) (c : String) (hc : xwalk c = none) :
    (rows.filter (fun d => d ≠ c)).filterMap xwalk = rows.filterMap xwalk := by
  induction rows with
  | nil => rfl
  | cons a as ih =>
    by_cases ha : a = c
    · subst ha
      simp only [List.filter_cons, List.filterMap_cons, hc]
      simp only [decide_not] at ih
      simpa using ih
    · cases hxa : xwalk a with
      | none =>
        simp [List.filter_cons, ha, List.filterMap_cons, hxa]
        simpa using ih
      | some v =>
        simp [List.filter_cons, ha, List.filterMap_cons, hxa]
        simpa using ih

/-- C8 amended: a raw code with no crosswalk entry is handled silently,
never fatally: the `isin`-filter pipeline produces exactly the output
it would produce had the unmapped code never been in the table, every
output code comes from some mapped input code, and the `Series.map`
pipeline turns the unmapped code into a null code. -/
theorem C8_amended (xwalk : String → Option String) (rows : List String)
    (c : String) (hc : xwalk c = none) :
    codeFilterMap xwalk rows
      = codeFilterMap xwalk (rows.filter (fun d => d ≠ c))
    ∧ (∀ r ∈ codeFilterMap xwalk rows, ∃ s ∈ rows, xwalk s = some r)
    ∧ mapToNull xwalk (c :: rows) = none :: mapToNull xwalk rows := by
  refine ⟨?_, ?_, by simp [mapToNull, hc]⟩
  · rw [codeFilterMap, codeFilterMap, filter_isSome_filterMap,
      filter_isSome_filterMap, filterMap_drop_none xwalk rows c hc]
  · intro r hr
    rw [codeFilterMap] at hr
    obtain ⟨a, ha, hxa⟩ := List.mem_filterMap.mp hr
    exact ⟨a, (List.mem_filter.mp ha).1, hxa⟩

/-- Witness for the amended C8 on the concrete crosswalk. -/
theorem C8_amended_witness :
    xwalkC8 "X" = none
    ∧ codeFilterMap xwalkC8 rowsC8
      = codeFilterMap xwalkC8 (rowsC8.filter (fun d => d ≠ "X")) :=
  ⟨rfl, (C8_amended xwalkC8 rowsC8 "X" rfl).1⟩

/-- C9: with nonnegative flow values (nominal flows and costs after the
zero-fill), every cost share is defined: a user column with total 0 has
all its cells equal to 0/0 = NaN, which the fill replaces by zero, so
the column's shares are all zero; and no cell of the resulting matrix
is NaN — every cell is an actual rational value. -/
theorem C9_cost_share_total {m : ℕ} (value : Fin m → Fin m → ℚ)
    (hpos : ∀ s u, 0 ≤ value s u) (u : Fin m) :
    (colTotal value u = 0 → ∀ s, costShare value s u = PCell.val 0)
    ∧ (∀ s, ∃ q, costShare value s u = PCell.val q) := by
  have hzero : colTotal value u = 0 → ∀ s, costShare value s u = PCell.val 0 := by
    intro h0 s
    have hz : value s u = 0 :=
      (Finset.sum_eq_zero_iff_of_nonneg (fun i _ => hpos i u)).mp h0 s
        (Finset.mem_univ s)
    simp [costShare, pdiv, hz, h0, fillNaN]
  refine ⟨hzero, fun s => ?_⟩
  by_cases h0 : colTotal value u = 0
  · exact ⟨0, hzero h0 s⟩
  · refine ⟨value s u / colTotal value u, ?_⟩
    simp [costShare, pdiv, h0, fillNaN]

/-- The concrete flow table for the C9 witness: user column 0 has flows
3 and 1, user column 1 has no recorded activity (total 0). -/
def valueC9 : Fin 2 → Fin 2 → ℚ :=
  fun s u => if (u : ℕ) = 0 then (if (s : ℕ) = 0 then 3 else 1) else 0

/-- Witness for C9 on the concrete flow table `valueC9`. -/
theorem C9_cost_share_total_witness :
    (∀ s u, 0 ≤ valueC9 s u)
    ∧ (colTotal valueC9 1 = 0 → ∀ s, costShare valueC9 s 1 = PCell.val 0)
    ∧ (∀ s, ∃ q, costShare valueC9 s 1 = PCell.val q) := by
  have hpos : ∀ s u, 0 ≤ valueC9 s u := by
    intro s u
    unfold valueC9
    split_ifs <;> norm_num
  obtain ⟨a, b⟩ := C9_cost_share_total valueC9 hpos 1
  exact ⟨hpos, a, b⟩
